import Mathlib

/-!
# Verification of the chunking / keyword-retrieval core of `optio_IIA`

Shallow embedding of the two core routines of the repository:

* `splitIntoChunks` from `backend/lib/chunking.js` — splits text into
  overlapping character windows, tagged with `char_start` / `char_end`.
* `tokenizeMessage`, `scoreChunk`, `retrieveTopChunks` from the chunk
  retrieval helper — keyword tokenization, substring-count scoring, and
  top-K ranking of stored chunks.

Texts are modelled as `List Char`; the JS `while` loop of the chunker is
modelled with explicit fuel (an `Option` result, `none` = the loop has not
finished within the given fuel), since the source loop does not terminate
on all inputs.
-/

namespace Optio

set_option maxRecDepth 8000

/-! ## Chunker (`backend/lib/chunking.js`) -/

/-- Characters removed by JavaScript `String.prototype.trim`:
ASCII whitespace, NBSP, BOM and the Unicode `Zs` space separators. -/
def isWsChar (c : Char) : Bool :=
  c = ' ' || c = '\t' || c = '\n' || c = '\r' || c = '\x0b' || c = '\x0c' ||
  c = ' ' || c = ' ' || c = ' ' || c = ' ' || c = ' ' ||
  c = ' ' || c = ' ' || c = ' ' || c = ' ' || c = ' ' ||
  c = ' ' || c = ' ' || c = ' ' || c = ' ' || c = ' ' ||
  c = ' ' || c = ' ' || c = '　' || c = '﻿'

/-- `chunkContent.trim().length > 0` from the source: the window is kept
iff it contains at least one non-whitespace character. -/
def keepChunk (s : List Char) : Bool :=
  s.any (fun c => !(isWsChar c))

/-- One output chunk of `splitIntoChunks`:
`{ content, char_start, char_end }`. -/
structure Chunk where
  content : List Char
  char_start : Nat
  char_end : Nat
deriving DecidableEq, Repr

/-- `endIndex = Math.min(startIndex + chunkSizeChars, text.length)`. -/
def windowEnd (text : List Char) (chunkSizeChars s : Nat) : Nat :=
  min (s + chunkSizeChars) text.length

/-- `chunkContent = text.substring(startIndex, endIndex)`. -/
def windowContent (text : List Char) (chunkSizeChars s : Nat) : List Char :=
  (text.drop s).take (windowEnd text chunkSizeChars s - s)

/-- The conditional push `if (chunkContent.trim().length > 0) chunks.push(...)`. -/
def pushWindow (text : List Char) (chunkSizeChars s : Nat) (chunks : List Chunk) :
    List Chunk :=
  if keepChunk (windowContent text chunkSizeChars s) then
    chunks ++ [⟨windowContent text chunkSizeChars s, s, windowEnd text chunkSizeChars s⟩]
  else chunks

/-- `startIndex = endIndex - overlapChars` (a JS number, hence `Int`),
reset to `endIndex` when the guard `startIndex <=
chunks[chunks.length - 1]?.char_start || startIndex < 0` fires.  `chunks`
here is the list after the conditional push.  In JS, when it is empty the
optional chaining yields `undefined` and the `<=` comparison is `false`. -/
def nextStart (text : List Char) (chunkSizeChars overlapChars s : Nat)
    (chunks : List Chunk) : Nat :=
  let nextRaw : Int := (windowEnd text chunkSizeChars s : Int) - (overlapChars : Int)
  if ((match chunks.getLast? with
      | some c => decide (nextRaw ≤ (c.char_start : Int))
      | none => false) || decide (nextRaw < 0)) then
    windowEnd text chunkSizeChars s
  else nextRaw.toNat

/-- The `while (startIndex < text.length)` loop of `splitIntoChunks`,
with explicit fuel. -/
def chunkLoop (text : List Char) (chunkSizeChars overlapChars : Nat) :
    Nat → Nat → List Chunk → Option (List Chunk)
  | 0, _, _ => none
  | fuel + 1, startIndex, chunks =>
    if startIndex < text.length then
      chunkLoop text chunkSizeChars overlapChars fuel
        (nextStart text chunkSizeChars overlapChars startIndex
          (pushWindow text chunkSizeChars startIndex chunks))
        (pushWindow text chunkSizeChars startIndex chunks)
    else some chunks

/-- `splitIntoChunks(text, chunkSizeChars, overlapChars)`.  The fuel
`(length + 2)^2` is an upper bound on the number of iterations of any
terminating run of the source loop; `none` means the source loop does
not finish within that budget. -/
def splitIntoChunks (text : List Char) (chunkSizeChars overlapChars : Nat) :
    Option (List Chunk) :=
  if text.isEmpty then some []
  else chunkLoop text chunkSizeChars overlapChars
    ((text.length + 2) * (text.length + 2)) 0 []

/-- The chunk-record construction of the upload handler (`handlePdfUpload`):
`chunks.map((chunk, index) => ({ doc_id, chunk_index: index, content,
metadata_json: { source: "pdf", file_name, char_start, char_end },
embedding: null }))`. -/
structure ChunkRecord where
  doc_id : String
  chunk_index : Nat
  content : List Char
  meta_source : String
  meta_file_name : String
  meta_char_start : Nat
  meta_char_end : Nat
deriving DecidableEq, Repr

/-- Index assignment at ingestion: sequential positions of the chunk list. -/
def chunkRecords (docId fileName : String) (chunks : List Chunk) : List ChunkRecord :=
  chunks.enum.map (fun p =>
    { doc_id := docId
      chunk_index := p.1
      content := p.2.content
      meta_source := "pdf"
      meta_file_name := fileName
      meta_char_start := p.2.char_start
      meta_char_end := p.2.char_end })

/-- Concatenation-with-overlap-removal of a chunk list: each chunk
contributes its content with the part that lies below the running
high-water mark (the largest `char_end` seen so far) removed.  This is
the "union of the `[char_start, char_end)` spans in order" of the spec. -/
def reconstruct : List Chunk → Nat → List Char
  | [], _ => []
  | c :: rest, covered =>
    c.content.drop (covered - c.char_start) ++ reconstruct rest (max covered c.char_end)

/-- Every window examined by the chunker contains a non-whitespace
character, so the `trim()` filter never drops a window. -/
def allWindowsKeepable (text : List Char) (chunkSizeChars : Nat) : Prop :=
  ∀ s, s < text.length → keepChunk ((text.drop s).take chunkSizeChars) = true


/-! ## Retriever (chunk retrieval helper) -/

/-- A JavaScript `\w` word character: `[A-Za-z0-9_]`. -/
def isWordChar (c : Char) : Bool :=
  ('a' ≤ c && c ≤ 'z') || ('A' ≤ c && c ≤ 'Z') || ('0' ≤ c && c ≤ '9') || c = '_'

/-- `str.split(/\W+/)`: the pieces standing between maximal non-empty runs
of non-word characters.  The state is `some acc` while inside a word
(`acc` holds its characters reversed) and `none` while inside a separator
run whose preceding piece has already been emitted.  As in JS, a leading
or trailing separator run contributes an empty piece, and the empty
string splits to `[""]`. -/
def splitNWAux : List Char → Option (List Char) → List (List Char)
  | [], some acc => [acc.reverse]
  | [], none => [[]]
  | c :: rest, some acc =>
    if isWordChar c then splitNWAux rest (some (c :: acc))
    else acc.reverse :: splitNWAux rest none
  | c :: rest, none =>
    if isWordChar c then splitNWAux rest (some [c]) else splitNWAux rest none

/-- `message.split(/\W+/)` on a character list. -/
def splitNW (l : List Char) : List (List Char) :=
  splitNWAux l (some [])

/-- `tokenizeMessage(message)`: lowercase, split on `\W+`, keep words of
length ≥ 4, keep only the first occurrence of each word
(`arr.indexOf(word) === index`). -/
def tokenizeMessage (message : List Char) : List (List Char) :=
  if message.isEmpty then []
  else
    let words := (splitNW (message.map Char.toLower)).filter (fun w => decide (4 ≤ w.length))
    (words.enum.filter (fun p => decide (words.indexOf p.2 = p.1))).map Prod.snd

/-- The match count of the global regex search `lowerContent.match(new
RegExp(keyword, "gi"))` for a literal pattern `tok` (query tokens consist
of word characters only, so the pattern is literal): scan left to right;
at a match, resume after its end (the trailing `skip` counter consumes
the matched characters), so overlapping occurrences are not counted
twice.  An empty pattern matches once at every position, including the
end of the text. -/
def countNOGo (tok : List Char) : List Char → Nat → Nat
  | [], _ => if tok.isEmpty then 1 else 0
  | _ :: rest, skip + 1 => countNOGo tok rest skip
  | c :: rest, 0 =>
    if tok.isEmpty then 1 + countNOGo tok rest 0
    else if tok.isPrefixOf (c :: rest) then 1 + countNOGo tok rest (tok.length - 1)
    else countNOGo tok rest 0

/-- Number of non-overlapping, left-to-right occurrences of `tok` in `text`. -/
def countNonOverlap (tok text : List Char) : Nat :=
  countNOGo tok text 0

/-- `scoreChunk(chunkContent, keywords)`: lowercase the content, then add
up, over the keywords, the number of matches of the per-keyword global
regex search.  Keywords coming from `tokenizeMessage` are lowercase, so
the `i` flag adds nothing beyond the lowercasing of the content. -/
def scoreChunk (chunkContent : List Char) (keywords : List (List Char)) : Nat :=
  if chunkContent.isEmpty || keywords.isEmpty then 0
  else
    let lowerContent := chunkContent.map Char.toLower
    keywords.foldl (fun score keyword => score + countNonOverlap keyword lowerContent) 0

/-- A row of `document_chunks` as fetched by `retrieveTopChunks`:
`chunk_pk, doc_id, chunk_index, content, metadata_json`. -/
structure StoredChunk where
  chunk_pk : Nat
  doc_id : String
  chunk_index : Nat
  content : List Char
  metadata_json : Option String
deriving DecidableEq, Repr

/-- `{ ...chunk, score: scoreChunk(chunk.content, keywords) }`. -/
structure ScoredChunk where
  chunk : StoredChunk
  score : Nat
deriving DecidableEq, Repr

/-- The output shape of `retrieveTopChunks`:
`{ doc_id, chunk_index, content, metadata_json }` — no score field. -/
structure RetrievedChunk where
  doc_id : String
  chunk_index : Nat
  content : List Char
  metadata_json : String
deriving DecidableEq, Repr

/-- The JSON text of the empty object, the `{}` default of
`chunk.metadata_json || {}`. -/
def defaultMetadata : String := "\x7b\x7d"

/-- `chunk => ({ doc_id, chunk_index, content, metadata_json: chunk.metadata_json || {} })`. -/
def toRetrieved (c : ScoredChunk) : RetrievedChunk :=
  { doc_id := c.chunk.doc_id
    chunk_index := c.chunk.chunk_index
    content := c.chunk.content
    metadata_json := c.chunk.metadata_json.getD defaultMetadata }

/-- The comparator `(a, b) => b.score !== a.score ? b.score - a.score :
a.chunk_index - b.chunk_index` as the non-strict order "`a` may be placed
before `b`": higher score first, equal scores by ascending chunk index. -/
def chunkOrder (a b : ScoredChunk) : Prop :=
  b.score < a.score ∨ (a.score = b.score ∧ a.chunk.chunk_index ≤ b.chunk.chunk_index)

instance : DecidableRel chunkOrder := fun a b => by
  unfold chunkOrder; infer_instance

instance : IsTotal ScoredChunk chunkOrder where
  total a b := by
    unfold chunkOrder
    rcases Nat.lt_trichotomy a.score b.score with h | h | h
    · exact Or.inr (Or.inl h)
    · rcases Nat.le_total a.chunk.chunk_index b.chunk.chunk_index with h' | h'
      · exact Or.inl (Or.inr ⟨h, h'⟩)
      · exact Or.inr (Or.inr ⟨h.symm, h'⟩)
    · exact Or.inl (Or.inl h)

instance : IsTrans ScoredChunk chunkOrder where
  trans a b c hab hbc := by
    unfold chunkOrder at *
    rcases hab with h1 | ⟨h1, h1'⟩
    · rcases hbc with h2 | ⟨h2, _⟩
      · exact Or.inl (h2.trans h1)
      · exact Or.inl (h2 ▸ h1)
    · rcases hbc with h2 | ⟨h2, h2'⟩
      · exact Or.inl (h1 ▸ h2)
      · exact Or.inr ⟨h1.trans h2, h1'.trans h2'⟩

/-- `retrieveTopChunks({ docIds, message, topK })`.  The storage call is
the one external input, passed in as `fetchResult` (`Except` models the
`{ data, error }` pair of the client: `error` makes the function throw
`Failed to fetch chunks: ...`, re-thrown by the surrounding catch).  The
rest mirrors the source: guards for empty `docIds` / `message` /
keywords / fetched rows, scoring, the in-place comparator sort, `slice(0,
topK)`, the fallback block for under-filled results, and the final
projection that drops `chunk_pk` and `score`. -/
def retrieveTopChunks (docIds : List String) (message : List Char) (topK : Nat)
    (fetchResult : Except String (List StoredChunk)) :
    Except String (List RetrievedChunk) :=
  if docIds.isEmpty then .ok []
  else if message.isEmpty then .ok []
  else
    let keywords := tokenizeMessage message
    if keywords.isEmpty then .ok []
    else
      match fetchResult with
      | .error e => .error ("Failed to fetch chunks: " ++ e)
      | .ok allChunks =>
        if allChunks.isEmpty then .ok []
        else
          let scoredChunks := allChunks.map
            (fun c => ScoredChunk.mk c (scoreChunk c.content keywords))
          let sorted := scoredChunks.insertionSort chunkOrder
          let topChunks := sorted.take topK
          let final :=
            if topChunks.length < topK ∧ topChunks.length < sorted.length then
              topChunks ++ ((sorted.drop topK).filter (fun c =>
                !(topChunks.any (fun tc => tc.chunk.chunk_pk == c.chunk.chunk_pk)))).take
                (topK - topChunks.length)
            else topChunks
          .ok (final.map toRetrieved)

/-- Invariant of every pushed chunk: bounded width, content equal to the
text window between its offsets, non-empty after trimming. -/
def chunkInv (text : List Char) (chunkSizeChars : Nat) (c : Chunk) : Prop :=
  c.char_end - c.char_start ≤ chunkSizeChars ∧
  c.content = (text.drop c.char_start).take (c.char_end - c.char_start) ∧
  keepChunk c.content = true


/-- What `nextStart` computes whenever the current window was pushed: the
guard then compares against the start of the window just pushed. -/
def nextStartNS (text : List Char) (cs ov s : Nat) : Nat :=
  if (decide ((windowEnd text cs s : Int) - (ov : Int) ≤ (s : Int)) ||
      decide ((windowEnd text cs s : Int) - (ov : Int) < 0)) then
    windowEnd text cs s
  else ((windowEnd text cs s : Int) - (ov : Int)).toNat

/-- The chunker loop specialised to runs in which no window is dropped:
the accumulator disappears and each iteration conses its window. -/
def chunkLoopNS (text : List Char) (cs ov : Nat) : Nat → Nat → Option (List Chunk)
  | 0, _ => none
  | fuel + 1, s =>
    if s < text.length then
      (chunkLoopNS text cs ov fuel (nextStartNS text cs ov s)).map
        (fun rest => ⟨windowContent text cs s, s, windowEnd text cs s⟩ :: rest)
    else some []

/-- Modelled from the spec's words ("overlapping matches counted
independently per keyword"): the number of positions of `text` at which
`tok` occurs as a substring, overlapping occurrences counted
independently. -/
def countOverlappingSpec (tok text : List Char) : Nat :=
  ((List.range (text.length + 1)).filter
    (fun i => tok.isPrefixOf (text.drop i))).length

/-- Modelled from the spec: "the result is simply the first `top_k`
entries of the fully sorted list" — score each fetched chunk, sort all of
them by (score descending, chunk index ascending), take the first
`top_k`, and project away the score. -/
def retrieveTopChunksSpec (message : List Char) (topK : Nat)
    (chunks : List StoredChunk) : List RetrievedChunk :=
  (((chunks.map (fun c => ScoredChunk.mk c
      (scoreChunk c.content (tokenizeMessage message)))).insertionSort
    chunkOrder).take topK).map toRetrieved

example : splitIntoChunks "ab".toList 1200 200 = some [⟨['a', 'b'], 0, 2⟩] := by decide
example : splitIntoChunks "".toList 1200 200 = some [] := by decide
example : splitIntoChunks ['a', ' '] 1 0 = some [⟨['a'], 0, 1⟩] := by decide

/-! ## Chunker lemmas -/

/-- A kept window is non-empty, so its end lies strictly past its start. -/
lemma lt_windowEnd_of_keep {text : List Char} {cs s : Nat}
    (hk : keepChunk (windowContent text cs s) = true) : s < windowEnd text cs s := by
  by_contra hle
  have h0 : windowEnd text cs s - s = 0 := by omega
  have : windowContent text cs s = [] := by
    unfold windowContent; rw [h0]; simp
  rw [this] at hk
  simp [keepChunk] at hk

/-- `s ≤ windowEnd` as long as the loop condition `s < text.length` holds. -/
lemma le_windowEnd {text : List Char} {cs s : Nat} (hs : s < text.length) :
    s ≤ windowEnd text cs s := by
  unfold windowEnd; omega

/-- In a list of chunks with strictly increasing `char_start`, the last
element has the largest `char_start`. -/
lemma char_start_le_getLast {acc : List Chunk} {lastc : Chunk}
    (hl : acc.getLast? = some lastc)
    (hp : acc.Pairwise (fun a b => a.char_start < b.char_start)) :
    ∀ c ∈ acc, c.char_start ≤ lastc.char_start := by
  obtain ⟨ys, rfl⟩ := List.getLast?_eq_some_iff.mp hl
  intro c hc
  rcases List.mem_append.mp hc with hc | hc
  · exact le_of_lt ((List.pairwise_append.mp hp).2.2 c hc lastc (by simp))
  · simp only [List.mem_singleton] at hc
    exact le_of_eq (congrArg Chunk.char_start hc)

/-- The accumulated chunk list stays strictly sorted by `char_start`, and
every accumulated `char_start` stays below the next start index. -/
lemma chunkLoop_pairwise (text : List Char) (cs ov : Nat) :
    ∀ fuel s acc out, chunkLoop text cs ov fuel s acc = some out →
      acc.Pairwise (fun a b => a.char_start < b.char_start) →
      (∀ c ∈ acc, c.char_start < s) →
      out.Pairwise (fun a b => a.char_start < b.char_start) := by
  intro fuel
  induction fuel with
  | zero => intro s acc out h; simp [chunkLoop] at h
  | succ f ih =>
    intro s acc out h hp hb
    simp only [chunkLoop] at h
    by_cases hs : s < text.length
    · rw [if_pos hs] at h
      have hstart : ∀ c ∈ pushWindow text cs s acc,
          c.char_start < s ∨ c.char_start = s := by
        intro c hc
        unfold pushWindow at hc
        by_cases hk : keepChunk (windowContent text cs s) = true
        · rw [if_pos hk] at hc
          rcases List.mem_append.mp hc with hc | hc
          · exact Or.inl (hb c hc)
          · simp only [List.mem_singleton] at hc
            exact Or.inr (congrArg Chunk.char_start hc)
        · rw [if_neg hk] at hc
          exact Or.inl (hb c hc)
      have hp' : (pushWindow text cs s acc).Pairwise
          (fun a b => a.char_start < b.char_start) := by
        unfold pushWindow
        by_cases hk : keepChunk (windowContent text cs s) = true
        · rw [if_pos hk]
          refine List.pairwise_append.mpr ⟨hp, by simp, ?_⟩
          intro a ha b hbmem
          simp only [List.mem_singleton] at hbmem
          rw [hbmem]
          exact hb a ha
        · rw [if_neg hk]; exact hp
      have hb' : ∀ c ∈ pushWindow text cs s acc,
          c.char_start < nextStart text cs ov s (pushWindow text cs s acc) := by
        intro c hc
        unfold nextStart
        cases hl : (pushWindow text cs s acc).getLast? with
        | none =>
          rw [List.getLast?_eq_none_iff.mp hl] at hc
          cases hc
        | some lastc =>
          simp only [hl]
          by_cases hg : (decide ((windowEnd text cs s : Int) - (ov : Int) ≤
              (lastc.char_start : Int)) ||
              decide ((windowEnd text cs s : Int) - (ov : Int) < 0)) = true
          · rw [if_pos hg]
            rcases hstart c hc with hlt | heq
            · exact lt_of_lt_of_le hlt (le_windowEnd hs)
            · rw [heq]
              -- `c` can only sit at `s` if the window at `s` was kept
              unfold pushWindow at hc
              by_cases hk : keepChunk (windowContent text cs s) = true
              · exact lt_windowEnd_of_keep hk
              · rw [if_neg hk] at hc
                exact absurd (hb c hc) (by omega)
          · rw [if_neg hg]
            simp only [Bool.or_eq_true, decide_eq_true_eq, not_or, not_lt, not_le] at hg
            have hle := char_start_le_getLast hl hp' c hc
            omega
      exact ih _ _ _ h hp' hb'
    · rw [if_neg hs] at h
      cases h
      exact hp


lemma chunkLoop_mem_sound (text : List Char) (cs ov : Nat) :
    ∀ fuel s acc out, chunkLoop text cs ov fuel s acc = some out →
      (∀ c ∈ acc, chunkInv text cs c) → ∀ c ∈ out, chunkInv text cs c := by
  intro fuel
  induction fuel with
  | zero => intro s acc out h; simp [chunkLoop] at h
  | succ f ih =>
    intro s acc out h hacc
    simp only [chunkLoop] at h
    by_cases hs : s < text.length
    · rw [if_pos hs] at h
      refine ih _ _ _ h ?_
      intro c hc
      unfold pushWindow at hc
      by_cases hk : keepChunk (windowContent text cs s) = true
      · rw [if_pos hk] at hc
        rcases List.mem_append.mp hc with hc | hc
        · exact hacc c hc
        · simp only [List.mem_singleton] at hc
          subst hc
          refine ⟨?_, rfl, hk⟩
          show windowEnd text cs s - s ≤ cs
          have := min_le_left (s + cs) text.length
          unfold windowEnd
          omega
      · rw [if_neg hk] at hc
        exact hacc c hc
    · rw [if_neg hs] at h
      cases h
      exact hacc

/-! ## C5, C9, C6 -/

/-- From the state `startIndex = 2`, `chunks = [⟨"a ", 0, 2⟩]` on the text
`"a    "` with `chunkSizeChars = overlapChars = 2`, the loop never exits:
the window `[2, 4)` is all whitespace, so nothing is pushed, and the
anti-infinite-loop guard compares the candidate next start `2` with the
`char_start` of the last *kept* chunk (`0`) instead of the previous
window's start (`2`), so the start index stays `2` forever. -/
lemma chunkLoop_stuck :
    ∀ fuel, chunkLoop ("a    ".toList) 2 2 fuel 2 [⟨['a', ' '], 0, 2⟩] = none := by
  intro fuel
  induction fuel with
  | zero => rfl
  | succ f ih =>
    have step : chunkLoop ("a    ".toList) 2 2 (f + 1) 2 [⟨['a', ' '], 0, 2⟩] =
        chunkLoop ("a    ".toList) 2 2 f 2 [⟨['a', ' '], 0, 2⟩] := rfl
    exact step.trans ih

/-- **C5** (code bug).  The claim — and the source's own comment
"Prevent infinite loop if overlap is too large" — say the guard forces
the next start to the previous window's end, making `splitIntoChunks`
terminate for every `chunk_size > 0` and `overlap ≥ 0`.  The code
instead compares against the last *kept* chunk, so on
`text = "a    "`, `chunk_size = 2`, `overlap = 2` the loop never
terminates: the fueled loop returns `none` for every fuel. -/
theorem splitIntoChunks_diverges :
    (∀ fuel, chunkLoop ("a    ".toList) 2 2 fuel 0 [] = none) ∧
    splitIntoChunks ("a    ".toList) 2 2 = none := by
  have hall : ∀ fuel, chunkLoop ("a    ".toList) 2 2 fuel 0 [] = none := by
    intro fuel
    match fuel with
    | 0 => rfl
    | f + 1 =>
      have step : chunkLoop ("a    ".toList) 2 2 (f + 1) 0 [] =
          chunkLoop ("a    ".toList) 2 2 f 2 [⟨['a', ' '], 0, 2⟩] := rfl
      exact step.trans (chunkLoop_stuck f)
  refine ⟨hall, ?_⟩
  have hred : splitIntoChunks ("a    ".toList) 2 2 =
      chunkLoop ("a    ".toList) 2 2
        ((("a    ".toList).length + 2) * (("a    ".toList).length + 2)) 0 [] := by
    unfold splitIntoChunks
    rw [if_neg (by decide : ¬("a    ".toList).isEmpty = true)]
  rw [hred]
  exact hall _

/-- **C9**.  Every chunk emitted by `splitIntoChunks` spans at most
`chunk_size` characters, its content is exactly the text between its
offsets (the source span is recoverable), and it is non-empty after
trimming. -/
theorem splitIntoChunks_chunk_invariants (text : List Char) (cs ov : Nat)
    (out : List Chunk) (h : splitIntoChunks text cs ov = some out) :
    ∀ c ∈ out, chunkInv text cs c := by
  unfold splitIntoChunks at h
  by_cases he : text.isEmpty
  · rw [if_pos he] at h
    cases h
    intro c hc
    cases hc
  · rw [if_neg he] at h
    exact chunkLoop_mem_sound text cs ov _ _ _ _ h (by intro c hc; cases hc)

/-- Witness for C9 at `text = "abcdef"`, `chunk_size = 4`, `overlap = 1`. -/
theorem splitIntoChunks_chunk_invariants_witness :
    chunkInv ("abcdef".toList) 4 ⟨['d', 'e', 'f'], 3, 6⟩ :=
  splitIntoChunks_chunk_invariants ("abcdef".toList) 4 1
    [⟨['a', 'b', 'c', 'd'], 0, 4⟩, ⟨['d', 'e', 'f'], 3, 6⟩, ⟨['f'], 5, 6⟩]
    (by decide) ⟨['d', 'e', 'f'], 3, 6⟩ (by decide)

/-- **C6**.  Whenever `splitIntoChunks` returns, its chunks have strictly
increasing `char_start`, and the ingestion records built from them by the
upload handler carry the chunk indices `0 .. n-1` in output order. -/
theorem splitIntoChunks_sorted_and_indices (text : List Char) (cs ov : Nat)
    (out : List Chunk) (docId fileName : String)
    (h : splitIntoChunks text cs ov = some out) :
    out.Pairwise (fun a b => a.char_start < b.char_start) ∧
    (chunkRecords docId fileName out).map (fun r => r.chunk_index) =
      List.range out.length := by
  constructor
  · unfold splitIntoChunks at h
    by_cases he : text.isEmpty
    · rw [if_pos he] at h
      cases h
      exact List.Pairwise.nil
    · rw [if_neg he] at h
      exact chunkLoop_pairwise text cs ov _ _ _ _ h List.Pairwise.nil
        (by intro c hc; cases hc)
  · unfold chunkRecords
    rw [List.map_map]
    exact (List.enumFrom_map_fst 0 out).trans (List.range_eq_range' out.length).symm

/-- Witness for C6 at `text = "abcdef"`, `chunk_size = 4`, `overlap = 1`. -/
theorem splitIntoChunks_sorted_and_indices_witness :
    ([⟨['a', 'b', 'c', 'd'], 0, 4⟩, ⟨['d', 'e', 'f'], 3, 6⟩,
        (⟨['f'], 5, 6⟩ : Chunk)]).Pairwise (fun a b => a.char_start < b.char_start) ∧
    (chunkRecords "doc-1" "file.pdf"
        [⟨['a', 'b', 'c', 'd'], 0, 4⟩, ⟨['d', 'e', 'f'], 3, 6⟩, ⟨['f'], 5, 6⟩]).map
      (fun r => r.chunk_index) = List.range 3 :=
  splitIntoChunks_sorted_and_indices ("abcdef".toList) 4 1
    [⟨['a', 'b', 'c', 'd'], 0, 4⟩, ⟨['d', 'e', 'f'], 3, 6⟩, ⟨['f'], 5, 6⟩]
    "doc-1" "file.pdf" (by decide)

/-! ## Round-trip reconstruction (C1) -/

lemma nextStart_concat (text : List Char) (cs ov s : Nat) (acc : List Chunk) :
    nextStart text cs ov s
      (acc ++ [⟨windowContent text cs s, s, windowEnd text cs s⟩]) =
    nextStartNS text cs ov s := by
  unfold nextStart nextStartNS
  rw [List.getLast?_concat]

lemma windowContent_take_cs {text : List Char} {cs s : Nat} (hs : s < text.length) :
    windowContent text cs s = (text.drop s).take cs := by
  unfold windowContent windowEnd
  rcases le_or_lt (s + cs) text.length with h | h
  · rw [min_eq_left h]
    congr 1
    omega
  · rw [min_eq_right (le_of_lt h)]
    have hlen : (text.drop s).length = text.length - s := List.length_drop s text
    rw [show text.length - s = (text.drop s).length from hlen.symm, List.take_length]
    exact (List.take_of_length_le (by omega)).symm

/-- When no window is ever dropped, the source loop agrees with the
accumulator-free loop. -/
lemma chunkLoop_eq_NS (text : List Char) (cs ov : Nat)
    (hall : allWindowsKeepable text cs) :
    ∀ fuel s acc, chunkLoop text cs ov fuel s acc =
      (chunkLoopNS text cs ov fuel s).map (fun rest => acc ++ rest) := by
  intro fuel
  induction fuel with
  | zero => intro s acc; rfl
  | succ f ih =>
    intro s acc
    simp only [chunkLoop, chunkLoopNS]
    by_cases hs : s < text.length
    · rw [if_pos hs, if_pos hs]
      have hk : keepChunk (windowContent text cs s) = true := by
        rw [windowContent_take_cs hs]
        exact hall s hs
      have hpush : pushWindow text cs s acc =
          acc ++ [⟨windowContent text cs s, s, windowEnd text cs s⟩] := by
        unfold pushWindow
        rw [if_pos hk]
      rw [hpush, nextStart_concat, ih]
      cases chunkLoopNS text cs ov f (nextStartNS text cs ov s) with
      | none => rfl
      | some rest => simp
    · rw [if_neg hs, if_neg hs]
      simp

lemma drop_take_eq {α : Type} {l : List α} {m n : Nat} (h : m ≤ n) :
    (l.take n).drop m = (l.drop m).take (n - m) := by
  rw [List.take_drop, Nat.add_sub_cancel' h]

/-- Key invariant of a no-drop run: starting at `s` with the text covered
up to `cov` (with `s ≤ cov ≤ windowEnd s`), the produced chunks with
everything below `cov` removed yield exactly the rest of the text. -/
lemma chunkLoopNS_reconstruct (text : List Char) (cs ov : Nat) (hov : ov < cs) :
    ∀ fuel s cov rest, chunkLoopNS text cs ov fuel s = some rest →
      s ≤ cov → cov ≤ windowEnd text cs s →
      reconstruct rest cov = text.drop cov := by
  intro fuel
  induction fuel with
  | zero => intro s cov rest h; simp [chunkLoopNS] at h
  | succ f ih =>
    intro s cov rest h hsc hce
    simp only [chunkLoopNS] at h
    by_cases hs : s < text.length
    · rw [if_pos hs] at h
      cases hns : chunkLoopNS text cs ov f (nextStartNS text cs ov s) with
      | none => rw [hns] at h; cases h
      | some rest' =>
        rw [hns] at h
        simp only [Option.map_some'] at h
        cases h
        have hse : s ≤ windowEnd text cs s := le_windowEnd hs
        have helen : windowEnd text cs s ≤ text.length := min_le_right _ _
        -- facts about the next start index
        have hnext_le : nextStartNS text cs ov s ≤ windowEnd text cs s := by
          unfold nextStartNS
          split
          · exact le_refl _
          · omega
        have hnext_cover : windowEnd text cs s ≤
            windowEnd text cs (nextStartNS text cs ov s) := by
          have hub : windowEnd text cs s ≤ nextStartNS text cs ov s + cs := by
            unfold nextStartNS
            split
            · omega
            · rename_i hg
              simp only [Bool.or_eq_true, decide_eq_true_eq, not_or, not_le, not_lt] at hg
              omega
          exact le_min hub helen
        -- the recursive part covers from the window's end onwards
        have hrec : reconstruct rest' (windowEnd text cs s) =
            text.drop (windowEnd text cs s) :=
          ih _ _ _ hns hnext_le hnext_cover
        show reconstruct (⟨windowContent text cs s, s, windowEnd text cs s⟩ :: rest') cov =
          text.drop cov
        unfold reconstruct
        simp only
        rw [max_eq_right hce, hrec]
        -- head contribution: the window content above `cov`
        have hhead : (windowContent text cs s).drop (cov - s) =
            (text.drop cov).take (windowEnd text cs s - cov) := by
          unfold windowContent
          rw [drop_take_eq (by omega), List.drop_drop]
          congr 1
          · omega
          · congr 1
            omega
        rw [hhead]
        have := List.drop_take_append_drop' text cov (windowEnd text cs s - cov)
        rw [show windowEnd text cs s - cov + cov = windowEnd text cs s by omega] at this
        exact this
    · rw [if_neg hs] at h
      cases h
      show reconstruct [] cov = text.drop cov
      unfold reconstruct
      have : windowEnd text cs s ≤ s := by
        unfold windowEnd
        omega
      exact (List.drop_eq_nil_of_le (by omega)).symm

/-- **C1** (corrected).  On runs where `splitIntoChunks` returns and no
window of the text is whitespace-only (so the `trim()` filter drops
nothing), with `chunk_size > 0` and `0 ≤ overlap < chunk_size`,
concatenating the returned chunks with the already-covered prefix of each
chunk removed reconstructs the original text exactly. -/
theorem splitIntoChunks_reconstructs (text : List Char) (cs ov : Nat)
    (out : List Chunk) (hne : text ≠ []) (hcs : 0 < cs) (hov : ov < cs)
    (hall : allWindowsKeepable text cs)
    (h : splitIntoChunks text cs ov = some out) :
    reconstruct out 0 = text := by
  unfold splitIntoChunks at h
  rw [if_neg (by simp [List.isEmpty_iff, hne])] at h
  rw [chunkLoop_eq_NS text cs ov hall] at h
  cases hns : chunkLoopNS text cs ov ((text.length + 2) * (text.length + 2)) 0 with
  | none => rw [hns] at h; cases h
  | some rest =>
    rw [hns] at h
    simp only [Option.map_some', List.nil_append] at h
    cases h
    have := chunkLoopNS_reconstruct text cs ov hov _ 0 0 out hns (le_refl 0)
      (Nat.zero_le _)
    simpa using this

/-- Witness for the corrected C1 at `text = "abcdef"`, `chunk_size = 4`,
`overlap = 1`. -/
theorem splitIntoChunks_reconstructs_witness :
    reconstruct [⟨['a', 'b', 'c', 'd'], 0, 4⟩, ⟨['d', 'e', 'f'], 3, 6⟩,
      ⟨['f'], 5, 6⟩] 0 = "abcdef".toList :=
  splitIntoChunks_reconstructs ("abcdef".toList) 4 1
    [⟨['a', 'b', 'c', 'd'], 0, 4⟩, ⟨['d', 'e', 'f'], 3, 6⟩, ⟨['f'], 5, 6⟩]
    (by decide) (by decide) (by decide)
    (by unfold allWindowsKeepable; decide) (by decide)

/-- Counterexample to C1 as stated: on `text = "a "`, `chunk_size = 1`,
`overlap = 0` (non-empty text, `chunk_size > 0`, `0 ≤ overlap <
chunk_size`) the whitespace-only window `[1, 2)` is dropped by the
`trim()` filter, so the returned spans only cover `[0, 1)` and the
reconstruction loses the trailing space. -/
theorem splitIntoChunks_reconstructs_counterexample :
    splitIntoChunks ['a', ' '] 1 0 = some [⟨['a'], 0, 1⟩] ∧
    reconstruct [⟨['a'], 0, 1⟩] 0 ≠ ['a', ' '] :=
  ⟨by decide, by decide⟩

example : tokenizeMessage "What is the status of Graphene synthesis?".toList =
    ["what".toList, "status".toList, "graphene".toList, "synthesis".toList] := by decide

example : scoreChunk "aaaaa".toList ["aaaa".toList] = 1 := by decide

example : scoreChunk "Graphene coating process".toList ["graphene".toList] = 1 := by decide

/-! ## Tokenization (C8) -/

/-- The `indexOf`-based de-duplication keeps pairwise distinct words. -/
lemma dedup_filter_nodup (l : List (List Char)) :
    ((l.enum.filter (fun p => decide (l.indexOf p.2 = p.1))).map Prod.snd).Nodup := by
  have hfst : l.enum.Pairwise (fun p q : Nat × List Char => p.1 < q.1) := by
    have h1 : List.Pairwise (· < ·) (l.enum.map Prod.fst) := by
      have h2 := List.enumFrom_map_fst 0 l
      rw [List.enum_eq_enumFrom, h2, ← List.range_eq_range']
      exact List.sorted_lt_range l.length
    exact List.pairwise_map.mp h1
  have hflt : (l.enum.filter (fun p => decide (l.indexOf p.2 = p.1))).Pairwise
      (fun p q : Nat × List Char => p.1 < q.1) :=
    List.Pairwise.sublist (List.filter_sublist _) hfst
  have hne : (l.enum.filter (fun p => decide (l.indexOf p.2 = p.1))).Pairwise
      (fun p q : Nat × List Char => p.2 ≠ q.2) := by
    refine hflt.imp_of_mem ?_
    intro p q hp hq hlt heq
    have hip := of_decide_eq_true (List.mem_filter.mp hp).2
    have hiq := of_decide_eq_true (List.mem_filter.mp hq).2
    rw [heq] at hip
    omega
  exact List.pairwise_map.mpr hne

/-- **C8**.  `tokenizeMessage` produces pairwise distinct tokens of length
at least 4 (lowercased, split on non-word characters, first occurrences
kept), and on the query `"What is the status of Graphene synthesis?"` it
yields exactly `what`, `status`, `graphene`, `synthesis` in this order. -/
theorem tokenizeMessage_spec :
    (∀ msg : List Char, (tokenizeMessage msg).Nodup ∧
      ∀ w ∈ tokenizeMessage msg, 4 ≤ w.length) ∧
    tokenizeMessage ("What is the status of Graphene synthesis?".toList) =
      ["what".toList, "status".toList, "graphene".toList, "synthesis".toList] := by
  constructor
  · intro msg
    unfold tokenizeMessage
    by_cases hm : msg.isEmpty
    · rw [if_pos hm]
      exact ⟨List.Pairwise.nil, by intro w hw; cases hw⟩
    · rw [if_neg hm]
      refine ⟨dedup_filter_nodup _, ?_⟩
      intro w hw
      obtain ⟨p, hp, rfl⟩ := List.mem_map.mp hw
      have hpword : p.2 ∈ (splitNW (msg.map Char.toLower)).filter
          (fun w => decide (4 ≤ w.length)) :=
        List.getElem?_mem (List.mem_enum_iff_getElem?.mp (List.mem_filter.mp hp).1)
      exact of_decide_eq_true (List.mem_filter.mp hpword).2
  · decide

/-- Witness for C8: the token `"graphene"` of the query
`"Graphene synthesis"` is one of the pairwise distinct tokens of
length ≥ 4. -/
theorem tokenizeMessage_spec_witness :
    (tokenizeMessage ("Graphene synthesis".toList)).Nodup ∧
    4 ≤ ("graphene".toList).length :=
  ⟨(tokenizeMessage_spec.1 ("Graphene synthesis".toList)).1,
    (tokenizeMessage_spec.1 ("Graphene synthesis".toList)).2
      ("graphene".toList) (by decide)⟩

/-! ## Scoring (C2) -/

lemma foldl_add_eq_sum (f : List Char → Nat) :
    ∀ (l : List (List Char)) (a : Nat),
      l.foldl (fun acc k => acc + f k) a = a + (l.map f).sum := by
  intro l
  induction l with
  | nil => intro a; simp
  | cons x xs ih =>
    intro a
    simp only [List.foldl_cons, List.map_cons, List.sum_cons, ih, Nat.add_assoc]


/-- **C2** (counterexample to the claim as stated).  The token `"aaaa"`
(produced by tokenizing the query `"aaaa"`) occurs twice in `"aaaaa"` when
overlapping occurrences are counted independently, but the global regex
search of `scoreChunk` counts non-overlapping matches only and scores 1. -/
theorem scoreChunk_overlap_counterexample :
    tokenizeMessage ("aaaa".toList) = [['a', 'a', 'a', 'a']] ∧
    scoreChunk ("aaaaa".toList) [['a', 'a', 'a', 'a']] = 1 ∧
    countOverlappingSpec ['a', 'a', 'a', 'a'] (("aaaaa".toList).map Char.toLower) = 2 ∧
    scoreChunk ("aaaaa".toList) [['a', 'a', 'a', 'a']] ≠
      ([['a', 'a', 'a', 'a']].map (fun t =>
        countOverlappingSpec t (("aaaaa".toList).map Char.toLower))).sum :=
  ⟨by decide, by decide, by decide, by decide⟩

/-- **C2** (corrected).  For keywords produced by tokenization (hence
non-empty), the score of a chunk is the sum, over the tokens, of the
number of *non-overlapping* left-to-right case-insensitive occurrences of
the token in the chunk content, and a chunk with no occurrence of any
token scores 0. -/
theorem scoreChunk_sum_nonoverlapping (content : List Char)
    (kws : List (List Char)) (hk : ∀ k ∈ kws, k ≠ []) :
    scoreChunk content kws =
      (kws.map (fun k => countNonOverlap k (content.map Char.toLower))).sum ∧
    ((∀ k ∈ kws, countNonOverlap k (content.map Char.toLower) = 0) →
      scoreChunk content kws = 0) := by
  have hmain : scoreChunk content kws =
      (kws.map (fun k => countNonOverlap k (content.map Char.toLower))).sum := by
    unfold scoreChunk
    by_cases hc : content.isEmpty
    · simp only [hc, Bool.true_or, if_true]
      symm
      apply List.sum_eq_zero
      intro x hx
      obtain ⟨k, hkmem, rfl⟩ := List.mem_map.mp hx
      have hkne : k ≠ [] := hk k hkmem
      rw [List.isEmpty_iff.mp hc]
      show countNOGo k [] 0 = 0
      unfold countNOGo
      simp [List.isEmpty_iff, hkne]
    · by_cases hkw : kws.isEmpty
      · rw [List.isEmpty_iff.mp hkw]
        simp
      · simp only [hc, hkw, Bool.or_self, if_false, Bool.false_or]
        rw [foldl_add_eq_sum]
        simp
  refine ⟨hmain, ?_⟩
  intro hzero
  rw [hmain]
  apply List.sum_eq_zero
  intro x hx
  obtain ⟨k, hkmem, rfl⟩ := List.mem_map.mp hx
  exact hzero k hkmem

/-- Witness for the corrected C2: `"test"` occurs twice (non-overlapping)
in `"a test of tests"`. -/
theorem scoreChunk_sum_nonoverlapping_witness :
    scoreChunk ("a test of tests".toList) [['t', 'e', 's', 't']] =
      ([['t', 'e', 's', 't']].map (fun k =>
        countNonOverlap k (("a test of tests".toList).map Char.toLower))).sum ∧
    scoreChunk ("a test of tests".toList) [['t', 'e', 's', 't']] = 2 :=
  ⟨(scoreChunk_sum_nonoverlapping ("a test of tests".toList)
      [['t', 'e', 's', 't']] (by decide)).1, by decide⟩

/-! ## Retrieval (C3, C4, C7, C10) -/


/-- On a successful fetch with non-empty `docIds` and at least one
keyword, the source's result — fallback block included — is the first
`topK` entries of the sorted scored list, stripped of their scores. -/
lemma retrieveTopChunks_ok (docIds : List String) (message : List Char)
    (topK : Nat) (chunks : List StoredChunk)
    (hdoc : docIds ≠ []) (hkw : tokenizeMessage message ≠ []) :
    retrieveTopChunks docIds message topK (.ok chunks) =
      .ok (retrieveTopChunksSpec message topK chunks) := by
  have hmsg : ¬message.isEmpty = true := by
    intro habs
    apply hkw
    rw [List.isEmpty_iff.mp habs]
    rfl
  unfold retrieveTopChunks retrieveTopChunksSpec
  rw [if_neg (by simp [List.isEmpty_iff, hdoc]), if_neg hmsg,
    if_neg (by simpa [List.isEmpty_iff] using hkw)]
  dsimp only
  by_cases hch : chunks.isEmpty
  · rw [if_pos hch]
    rw [List.isEmpty_iff.mp hch]
    simp
  · rw [if_neg hch]
    split
    · rename_i hcond
      exfalso
      rw [List.length_take] at hcond
      rcases Nat.le_total topK ((chunks.map (fun c => ScoredChunk.mk c
          (scoreChunk c.content (tokenizeMessage message)))).insertionSort
            chunkOrder).length with hle | hle
      · rw [min_eq_left hle] at hcond
        exact absurd hcond.1 (lt_irrefl _)
      · rw [min_eq_right hle] at hcond
        exact absurd hcond.2 (lt_irrefl _)
    · rfl

/-- **C7**.  With non-empty document ids and a query with at least one
keyword, a failed chunk fetch makes `retrieveTopChunks` propagate the
failure to the caller; in particular it never turns a fetch failure into
an `ok` result (such as an empty list). -/
theorem retrieveTopChunks_propagates_fetch_failure (docIds : List String)
    (message : List Char) (topK : Nat) (e : String)
    (hdoc : docIds ≠ []) (hkw : tokenizeMessage message ≠ []) :
    retrieveTopChunks docIds message topK (.error e) =
      .error ("Failed to fetch chunks: " ++ e) ∧
    ∀ l, retrieveTopChunks docIds message topK (.error e) ≠ .ok l := by
  have hmsg : ¬message.isEmpty = true := by
    intro habs
    apply hkw
    rw [List.isEmpty_iff.mp habs]
    rfl
  have h1 : retrieveTopChunks docIds message topK (.error e) =
      .error ("Failed to fetch chunks: " ++ e) := by
    unfold retrieveTopChunks
    rw [if_neg (by simp [List.isEmpty_iff, hdoc]), if_neg hmsg,
      if_neg (by simpa [List.isEmpty_iff] using hkw)]
  refine ⟨h1, ?_⟩
  intro l hl
  rw [h1] at hl
  cases hl

/-- Witness for C7 at a concrete failing fetch. -/
theorem retrieveTopChunks_propagates_fetch_failure_witness :
    retrieveTopChunks ["doc-1"] ("graphene".toList) 12 (.error "boom") =
      .error ("Failed to fetch chunks: " ++ "boom") ∧
    ∀ l, retrieveTopChunks ["doc-1"] ("graphene".toList) 12 (.error "boom") ≠
      .ok l :=
  retrieveTopChunks_propagates_fetch_failure ["doc-1"] ("graphene".toList)
    12 "boom" (by decide) (by decide)

/-- **C4**.  With non-empty document ids, at least one keyword and a
positive `topK`, the source's result — its fallback/padding block
included — equals the single-sort-then-take specification, and its length
is `min topK n` for `n` fetched chunks. -/
theorem retrieveTopChunks_eq_sort_take (docIds : List String)
    (message : List Char) (topK : Nat) (chunks : List StoredChunk)
    (hdoc : docIds ≠ []) (hkw : tokenizeMessage message ≠ [])
    (htop : 0 < topK) :
    retrieveTopChunks docIds message topK (.ok chunks) =
      .ok (retrieveTopChunksSpec message topK chunks) ∧
    (retrieveTopChunksSpec message topK chunks).length =
      min topK chunks.length := by
  refine ⟨retrieveTopChunks_ok docIds message topK chunks hdoc hkw, ?_⟩
  unfold retrieveTopChunksSpec
  rw [List.length_map, List.length_take,
    (List.perm_insertionSort chunkOrder _).length_eq, List.length_map]

/-- Witness for C4: three stored chunks, `topK = 2`, query `"graphene"`. -/
theorem retrieveTopChunks_eq_sort_take_witness :
    retrieveTopChunks ["doc-1"] ("graphene".toList) 2
        (.ok [⟨1, "doc-1", 0, "intro text".toList, none⟩,
              ⟨2, "doc-1", 1, "graphene layers".toList, none⟩,
              ⟨3, "doc-1", 2, "more graphene, graphene again".toList, none⟩]) =
      .ok (retrieveTopChunksSpec ("graphene".toList) 2
        [⟨1, "doc-1", 0, "intro text".toList, none⟩,
         ⟨2, "doc-1", 1, "graphene layers".toList, none⟩,
         ⟨3, "doc-1", 2, "more graphene, graphene again".toList, none⟩]) ∧
    (retrieveTopChunksSpec ("graphene".toList) 2
        [⟨1, "doc-1", 0, "intro text".toList, none⟩,
         ⟨2, "doc-1", 1, "graphene layers".toList, none⟩,
         ⟨3, "doc-1", 2, "more graphene, graphene again".toList, none⟩]).length =
      min 2 3 :=
  retrieveTopChunks_eq_sort_take ["doc-1"] ("graphene".toList) 2
    [⟨1, "doc-1", 0, "intro text".toList, none⟩,
     ⟨2, "doc-1", 1, "graphene layers".toList, none⟩,
     ⟨3, "doc-1", 2, "more graphene, graphene again".toList, none⟩]
    (by decide) (by decide) (by decide)

/-- **C3**.  Whatever `retrieveTopChunks` returns on a successful fetch is
ordered by (recomputed) score descending, and chunks of equal score —
in particular within the same document — appear in ascending chunk-index
order. -/
theorem retrieveTopChunks_sorted (docIds : List String) (message : List Char)
    (topK : Nat) (chunks : List StoredChunk) (out : List RetrievedChunk)
    (h : retrieveTopChunks docIds message topK (.ok chunks) = .ok out) :
    out.Pairwise (fun a b =>
      scoreChunk b.content (tokenizeMessage message) ≤
        scoreChunk a.content (tokenizeMessage message) ∧
      (scoreChunk a.content (tokenizeMessage message) =
          scoreChunk b.content (tokenizeMessage message) →
        a.doc_id = b.doc_id → a.chunk_index ≤ b.chunk_index)) := by
  by_cases hd : docIds.isEmpty
  · have hok : retrieveTopChunks docIds message topK (.ok chunks) = .ok [] := by
      unfold retrieveTopChunks
      rw [if_pos hd]
    rw [hok] at h
    cases h
    exact List.Pairwise.nil
  by_cases hm : message.isEmpty
  · have hok : retrieveTopChunks docIds message topK (.ok chunks) = .ok [] := by
      unfold retrieveTopChunks
      rw [if_neg hd, if_pos hm]
    rw [hok] at h
    cases h
    exact List.Pairwise.nil
  by_cases hk : (tokenizeMessage message).isEmpty
  · have hok : retrieveTopChunks docIds message topK (.ok chunks) = .ok [] := by
      unfold retrieveTopChunks
      rw [if_neg hd, if_neg hm, if_pos hk]
    rw [hok] at h
    cases h
    exact List.Pairwise.nil
  have hdoc : docIds ≠ [] := by simpa [List.isEmpty_iff] using hd
  have hkw : tokenizeMessage message ≠ [] := by simpa [List.isEmpty_iff] using hk
  rw [retrieveTopChunks_ok docIds message topK chunks hdoc hkw] at h
  cases h
  unfold retrieveTopChunksSpec
  apply List.pairwise_map.mpr
  have hsorted : ((chunks.map (fun c => ScoredChunk.mk c
      (scoreChunk c.content (tokenizeMessage message)))).insertionSort
        chunkOrder).Pairwise chunkOrder :=
    List.sorted_insertionSort chunkOrder _
  have htake := List.Pairwise.sublist (List.take_sublist topK _) hsorted
  refine htake.imp_of_mem ?_
  intro a b ha hb hab
  have hascore : a.score = scoreChunk a.chunk.content (tokenizeMessage message) := by
    have hmem : a ∈ chunks.map (fun c => ScoredChunk.mk c
        (scoreChunk c.content (tokenizeMessage message))) :=
      (List.mem_insertionSort chunkOrder).mp ((List.take_sublist topK _).subset ha)
    obtain ⟨c, _, rfl⟩ := List.mem_map.mp hmem
    rfl
  have hbscore : b.score = scoreChunk b.chunk.content (tokenizeMessage message) := by
    have hmem : b ∈ chunks.map (fun c => ScoredChunk.mk c
        (scoreChunk c.content (tokenizeMessage message))) :=
      (List.mem_insertionSort chunkOrder).mp ((List.take_sublist topK _).subset hb)
    obtain ⟨c, _, rfl⟩ := List.mem_map.mp hmem
    rfl
  dsimp only [toRetrieved]
  constructor
  · rcases hab with hlt | ⟨heq, _⟩
    · rw [← hascore, ← hbscore]
      exact le_of_lt hlt
    · rw [← hascore, ← hbscore, heq]
  · intro heqs _
    rcases hab with hlt | ⟨_, hidx⟩
    · exfalso
      rw [← hascore, ← hbscore] at heqs
      omega
    · exact hidx

/-- Witness for C3: the spec's ranking example — the chunk mentioning
`graphene` outranks the unrelated one. -/
theorem retrieveTopChunks_sorted_witness :
    ([⟨"doc-1", 0, "graphene coating process".toList, defaultMetadata⟩,
      ⟨"doc-1", 1, "unrelated text about polymers".toList, defaultMetadata⟩] :
        List RetrievedChunk).Pairwise (fun a b =>
      scoreChunk b.content (tokenizeMessage ("graphene".toList)) ≤
        scoreChunk a.content (tokenizeMessage ("graphene".toList)) ∧
      (scoreChunk a.content (tokenizeMessage ("graphene".toList)) =
          scoreChunk b.content (tokenizeMessage ("graphene".toList)) →
        a.doc_id = b.doc_id → a.chunk_index ≤ b.chunk_index)) :=
  retrieveTopChunks_sorted ["doc-1"] ("graphene".toList) 12
    [⟨1, "doc-1", 0, "graphene coating process".toList, none⟩,
     ⟨2, "doc-1", 1, "unrelated text about polymers".toList, none⟩]
    [⟨"doc-1", 0, "graphene coating process".toList, defaultMetadata⟩,
     ⟨"doc-1", 1, "unrelated text about polymers".toList, defaultMetadata⟩]
    (by rfl)

/-- **C10**.  Every entry of a successful retrieval is one of the fetched
chunks (as a sub-multiset: no chunk is used twice, none is fabricated),
with `doc_id`, `chunk_index` and `content` returned unchanged, the
metadata defaulted, and the ephemeral score stripped. -/
theorem retrieveTopChunks_no_fabrication (docIds : List String)
    (message : List Char) (topK : Nat) (chunks : List StoredChunk)
    (out : List RetrievedChunk)
    (h : retrieveTopChunks docIds message topK (.ok chunks) = .ok out) :
    ∃ sel : List StoredChunk, sel.Subperm chunks ∧
      out = sel.map (fun c => RetrievedChunk.mk c.doc_id c.chunk_index c.content
        (c.metadata_json.getD defaultMetadata)) := by
  by_cases hd : docIds.isEmpty
  · have hok : retrieveTopChunks docIds message topK (.ok chunks) = .ok [] := by
      unfold retrieveTopChunks
      rw [if_pos hd]
    rw [hok] at h
    cases h
    exact ⟨[], List.nil_subperm, rfl⟩
  by_cases hm : message.isEmpty
  · have hok : retrieveTopChunks docIds message topK (.ok chunks) = .ok [] := by
      unfold retrieveTopChunks
      rw [if_neg hd, if_pos hm]
    rw [hok] at h
    cases h
    exact ⟨[], List.nil_subperm, rfl⟩
  by_cases hk : (tokenizeMessage message).isEmpty
  · have hok : retrieveTopChunks docIds message topK (.ok chunks) = .ok [] := by
      unfold retrieveTopChunks
      rw [if_neg hd, if_neg hm, if_pos hk]
    rw [hok] at h
    cases h
    exact ⟨[], List.nil_subperm, rfl⟩
  have hdoc : docIds ≠ [] := by simpa [List.isEmpty_iff] using hd
  have hkw : tokenizeMessage message ≠ [] := by simpa [List.isEmpty_iff] using hk
  rw [retrieveTopChunks_ok docIds message topK chunks hdoc hkw] at h
  cases h
  refine ⟨(((chunks.map (fun c => ScoredChunk.mk c
      (scoreChunk c.content (tokenizeMessage message)))).insertionSort
        chunkOrder).take topK).map (fun sc => sc.chunk), ?_, ?_⟩
  · have h1 : List.Sublist
        ((((chunks.map (fun c => ScoredChunk.mk c
          (scoreChunk c.content (tokenizeMessage message)))).insertionSort
            chunkOrder).take topK).map (fun sc => sc.chunk))
        (((chunks.map (fun c => ScoredChunk.mk c
          (scoreChunk c.content (tokenizeMessage message)))).insertionSort
            chunkOrder).map (fun sc => sc.chunk)) :=
      List.Sublist.map _ (List.take_sublist topK _)
    have h2 : List.Perm
        (((chunks.map (fun c => ScoredChunk.mk c
          (scoreChunk c.content (tokenizeMessage message)))).insertionSort
            chunkOrder).map (fun sc => sc.chunk))
        ((chunks.map (fun c => ScoredChunk.mk c
          (scoreChunk c.content (tokenizeMessage message)))).map
            (fun sc => sc.chunk)) :=
      (List.perm_insertionSort chunkOrder _).map _
    have h3 : (chunks.map (fun c => ScoredChunk.mk c
        (scoreChunk c.content (tokenizeMessage message)))).map
          (fun sc => sc.chunk) = chunks := by
      rw [List.map_map]
      exact List.map_id' chunks
    exact h1.subperm.trans ((h3 ▸ h2).subperm)
  · unfold retrieveTopChunksSpec
    rw [List.map_map]
    rfl

/-- Witness for C10 at a concrete retrieval. -/
theorem retrieveTopChunks_no_fabrication_witness :
    ∃ sel : List StoredChunk,
      sel.Subperm [⟨1, "doc-1", 0, "graphene coating process".toList, none⟩,
        ⟨2, "doc-1", 1, "unrelated text about polymers".toList, none⟩] ∧
      ([⟨"doc-1", 0, "graphene coating process".toList, defaultMetadata⟩,
        ⟨"doc-1", 1, "unrelated text about polymers".toList, defaultMetadata⟩] :
          List RetrievedChunk) =
        sel.map (fun c => RetrievedChunk.mk c.doc_id c.chunk_index c.content
          (c.metadata_json.getD defaultMetadata)) :=
  retrieveTopChunks_no_fabrication ["doc-1"] ("graphene".toList) 12
    [⟨1, "doc-1", 0, "graphene coating process".toList, none⟩,
     ⟨2, "doc-1", 1, "unrelated text about polymers".toList, none⟩]
    [⟨"doc-1", 0, "graphene coating process".toList, defaultMetadata⟩,
     ⟨"doc-1", 1, "unrelated text about polymers".toList, defaultMetadata⟩]
    (by rfl)

end Optio
